import Mathlib

/-!
Verification of the PCA spot-rate engine.

Shallow embedding of the statistical core of the pca_spotrates web
application: the PCA analysis service (services/pca_analysis.py,
class PCAAnalyzer) and the stress-scenario generator
(services/stress_scenarios.py, class StressScenarioGenerator).

Modelling conventions:
* Machine floats are modelled as rationals; all arithmetic is exact.
* pandas DataFrames of yields are modelled at two levels: a column table
  (YieldTable) for the column-selection logic, and Fin-indexed rational
  matrices for the numerical pipeline.
* numpy/sklearn calls are translated to explicit rational-matrix
  computations.  The eigendecomposition performed inside
  sklearn.decomposition.PCA.fit is not computable exactly, so it enters
  the embedding as a solver argument; the documented contract of that
  decomposition (orthonormal rows, covariance diagonalisation, descending
  eigenvalues) is the predicate IsEigenDecomp, assumed as a hypothesis in
  the algebraic theorems and verified exactly on concrete panels
  whose covariance has an exact rational eigendecomposition.
* Python exceptions are modelled with Except; each raise site of the
  source maps to one error constructor.
-/

/-! ## Column-table layer (pca_analysis.py lines 45-50, stress_scenarios.py lines 104-108)

A pandas DataFrame with a Date column and named value columns.  Dates are
abstracted to naturals; the non-Date columns are name/values pairs in
their DataFrame order. -/

structure YieldTable where
  dates : List ℕ
  cols : List (String × List ℚ)

/-- Model of the Python test col.startswith('SR_') used on column names:
true exactly when the first three characters are S, R, _. -/
def startsWithSR (s : String) : Bool :=
  match s.data with
  | 'S' :: 'R' :: '_' :: _ => true
  | _ => false

/-- Model of Python col.replace('SR_', ''): scan left to right, and on a
match of the three characters S, R, _ drop them and continue after the
match, otherwise keep the character and move on (non-overlapping
replacement of every occurrence). -/
def replaceSRAux : List Char → List Char
  | [] => []
  | [c] => [c]
  | [c1, c2] => [c1, c2]
  | c1 :: c2 :: c3 :: rest =>
    if c1 = 'S' ∧ c2 = 'R' ∧ c3 = '_' then replaceSRAux rest
    else c1 :: replaceSRAux (c2 :: c3 :: rest)

def replaceSR (s : String) : String := ⟨replaceSRAux s.data⟩

/-- Occurrence test for the substring SR_ anywhere in a character list. -/
def containsSR : List Char → Bool
  | c1 :: c2 :: c3 :: rest =>
    if c1 = 'S' ∧ c2 = 'R' ∧ c3 = '_' then true
    else containsSR (c2 :: c3 :: rest)
  | _ => false

/-- Source line 46: maturity_cols, the names of the columns whose name
starts with SR_, in DataFrame order. -/
def maturity_cols (t : YieldTable) : List String :=
  (t.cols.map Prod.fst).filter fun c => startsWithSR c

/-- Source line 47: the data of yield_matrix, column-major — the value
lists of exactly the SR_ columns, in DataFrame order (column selection by
the names of maturity_cols). -/
def yieldCols (t : YieldTable) : List (List ℚ) :=
  (t.cols.filter fun c => startsWithSR c.1).map Prod.snd

/-- Source line 50: maturity labels, each SR_ column name with every
occurrence of SR_ removed by str.replace. -/
def maturitiesOf (t : YieldTable) : List String :=
  (maturity_cols t).map replaceSR

/-- The same table with every non-SR_ value column deleted. -/
def srOnlyTable (t : YieldTable) : YieldTable :=
  ⟨t.dates, t.cols.filter fun c => startsWithSR c.1⟩

/-- Spec-side maturity label: the three-character SR_ lead of the column
name stripped, the rest kept verbatim. -/
def specLabel (s : String) : String := ⟨s.data.drop 3⟩

/-! ## Stress-scenario layer (stress_scenarios.py, generate_scenarios lines 50-101)

The score frame df_scores restricted to PC1-PC3 and sorted by date is
modelled as a list of per-date score vectors (Fin 3 → ℚ), already in
ascending date order (the sort_index of line 56).  All frame operations
of the source act columnwise, so the pipeline is defined on single
columns (List ℚ) and applied to each of the three factor columns. -/

/-- Source line 59: df_scores.diff(periods=unit) followed by dropna
(line 60).  Row t of the diffed frame is score[t] - score[t-L]; the first
L rows have no valid lag and are dropped. -/
def lagDiff (s : List ℚ) (L : ℕ) : List ℚ :=
  List.zipWith (fun a b => a - b) (s.drop L) s

/-- Source lines 63-64: negative differences replaced by 0. -/
def clipUp (d : List ℚ) : List ℚ := d.map fun x => max x 0

/-- Source lines 66-67: positive differences replaced by 0. -/
def clipDown (d : List ℚ) : List ℚ := d.map fun x => min x 0

/-- The linear-interpolation empirical quantile used by
pandas Rolling.quantile(q) with its default interpolation: sort the
window, take position p * (n - 1), and interpolate linearly between the
neighbouring order statistics (the upper index clamped to n - 1).
An empty window is given the value 0 (it never arises in the source,
which uses min_periods=1). -/
def linQuantile (w : List ℚ) (p : ℚ) : ℚ :=
  let ws := w.insertionSort (· ≤ ·)
  if ws.length = 0 then 0
  else
    let pos : ℚ := p * ((ws.length : ℚ) - 1)
    let i : ℕ := (⌊pos⌋).toNat
    let lo := ws.getD i 0
    let hi := ws.getD (min (i + 1) (ws.length - 1)) 0
    lo + (pos - (⌊pos⌋ : ℚ)) * (hi - lo)

/-- Source lines 71-79: Rolling(window, min_periods=1).quantile(p).  The
window at position t holds the up to window last entries ending at t;
with min_periods=1 every position from the first on has a value. -/
def rollingQuantile (xs : List ℚ) (window : ℕ) (p : ℚ) : List ℚ :=
  (List.range xs.length).map fun t =>
    linQuantile ((xs.take (t + 1)).drop (t + 1 - window)) p

/-- Source lines 62-74 composed for one factor column: rolling quantile
at level q of the non-negative parts of the lag-L differences, window
rolling_window * unit. -/
def quantileUpSeries (s : List ℚ) (q : ℚ) (W L : ℕ) : List ℚ :=
  rollingQuantile (clipUp (lagDiff s L)) (W * L) q

/-- Source lines 66-79 composed for one factor column: rolling quantile
at level 1 - q of the non-positive parts of the lag-L differences. -/
def quantileDownSeries (s : List ℚ) (q : ℚ) (W L : ℕ) : List ℚ :=
  rollingQuantile (clipDown (lagDiff s L)) (W * L) (1 - q)

/-- Source lines 82-83: scores_aligned, the original scores restricted to
the index of the diffed frame (the dates from position L on). -/
def alignedScores (s : List ℚ) (L : ℕ) : List ℚ := s.drop L

/-- Source line 86: stressed_scores_up = scores_aligned + rolling_quantile_up. -/
def stressedUpSeries (s : List ℚ) (q : ℚ) (W L : ℕ) : List ℚ :=
  List.zipWith (fun a b => a + b) (alignedScores s L) (quantileUpSeries s q W L)

/-- Source line 87: stressed_scores_down = scores_aligned + rolling_quantile_down. -/
def stressedDownSeries (s : List ℚ) (q : ℚ) (W L : ℕ) : List ℚ :=
  List.zipWith (fun a b => a + b) (alignedScores s L) (quantileDownSeries s q W L)

/-- Errors generate_scenarios can signal.  indexOutOfBounds models the
Python IndexError raised by valid_idx[-1] on an empty index (line 98,
re-raised by the except block of lines 138-140).  insufficientHistory
models the InsufficientHistoryError demanded by the specification; no
raise site in the source produces it. -/
inductive StressError where
  | indexOutOfBounds : StressError
  | insufficientHistory : StressError
deriving DecidableEq

/-- The stress outputs the claims mention: the stressed score series and
rolling quantiles per factor, and the base/up/down scores at the latest
valid date (lines 98-101). -/
structure StressResult where
  stressedUp : Fin 3 → List ℚ
  stressedDown : Fin 3 → List ℚ
  quantUp : Fin 3 → List ℚ
  quantDown : Fin 3 → List ℚ
  latestBase : Fin 3 → ℚ
  latestUp : Fin 3 → ℚ
  latestDown : Fin 3 → ℚ

/-- generate_scenarios (stress_scenarios.py lines 21-140) on the PC1-PC3
score series, already sorted ascending by date.  The per-column pipeline
is the one defined above; valid_idx is the index of the diffed frame, and
accessing its last element fails with IndexError when no observation has
a valid lag (fewer than L + 1 observations). -/
def generate_scenarios (scores : List (Fin 3 → ℚ)) (q : ℚ) (W L : ℕ) :
    Except StressError StressResult :=
  let col : Fin 3 → List ℚ := fun c => scores.map fun f => f c
  match (lagDiff (col 0) L).length with
  | 0 => .error .indexOutOfBounds
  | _ + 1 =>
    .ok { stressedUp := fun c => stressedUpSeries (col c) q W L
          stressedDown := fun c => stressedDownSeries (col c) q W L
          quantUp := fun c => quantileUpSeries (col c) q W L
          quantDown := fun c => quantileDownSeries (col c) q W L
          latestBase := fun c => ((alignedScores (col c) L).getLast?).getD 0
          latestUp := fun c => ((stressedUpSeries (col c) q W L).getLast?).getD 0
          latestDown := fun c => ((stressedDownSeries (col c) q W L).getLast?).getD 0 }

/-! ## PCA layer (pca_analysis.py, class PCAAnalyzer)

The numerical pipeline of perform_pca (lines 31-86) on the extracted
yield matrix.  The plotting code (lines 66-69 and 88-280) only formats
results and is not modelled.  sklearn.decomposition.PCA with the default
svd_solver computes a full singular value decomposition of the centered
matrix, which is equivalent to an orthonormal eigendecomposition of its
covariance matrix with eigenvalues sorted descending; components_ are the
first n_components rows of that eigenvector matrix, explained_variance_
the matching eigenvalues S^2/(n-1), and explained_variance_ratio_ divides
them by the total variance, the sum of all eigenvalues.  PCA raises
ValueError when n_components exceeds min(n_samples, n_features). -/

open Matrix

/-- Sample covariance matrix of a data matrix whose rows are the
observations, with the 1/(n-1) normalisation sklearn uses. -/
def covMatrix {nr m : ℕ} (C : Matrix (Fin nr) (Fin m) ℚ) : Matrix (Fin m) (Fin m) ℚ :=
  ((nr : ℚ) - 1)⁻¹ • (Cᵀ * C)

/-- Total variance of the centered data: the trace of the covariance
matrix, equal to the sum of all covariance eigenvalues.  This is the
denominator of sklearn explained_variance_ratio_. -/
def totalVariance {nr m : ℕ} (C : Matrix (Fin nr) (Fin m) ℚ) : ℚ :=
  Matrix.trace (covMatrix C)

/-- Contract of the decomposition sklearn PCA.fit performs on the
centered matrix C: V is an orthogonal matrix whose rows are eigenvectors
of the covariance matrix of C, L the matching eigenvalues, sorted
descending.  Eigenvector signs are implementation-defined in sklearn
(svd_flip), and any sign choice satisfies this predicate. -/
def IsEigenDecomp {nr m : ℕ} (C : Matrix (Fin nr) (Fin m) ℚ)
    (V : Matrix (Fin m) (Fin m) ℚ) (L : Fin m → ℚ) : Prop :=
  V * Vᵀ = 1 ∧ covMatrix C = Vᵀ * Matrix.diagonal L * V ∧
    ∀ i j : Fin m, i ≤ j → L j ≤ L i

/-- The eigendecomposition sklearn computes internally is not exactly
computable, so it enters the embedding as an explicit function; the
theorems assume IsEigenDecomp about its output where they need it. -/
def EigenSolver (nr m : ℕ) : Type :=
  Matrix (Fin nr) (Fin m) ℚ → Matrix (Fin m) (Fin m) ℚ × (Fin m → ℚ)

/-- The fitted sklearn PCA object as stored in self.pca: retained
component count n_components_, components_ and explained_variance_. -/
structure FittedPCA (m : ℕ) where
  k : ℕ
  components : Matrix (Fin k) (Fin m) ℚ
  explained_variance : Fin k → ℚ

/-- The mutable fields of a PCAAnalyzer instance (lines 26-29):
n_components plus the state written by perform_pca and read by
reconstruct_yield_curve. -/
structure AnalyzerState (m : ℕ) where
  n_components : ℕ
  pca : Option (FittedPCA m)
  mean_curve : Option (Fin m → ℚ)
  maturities : Option (List String)

/-- PCAAnalyzer.__init__ (lines 19-29): stores n_components, all other
fields None. -/
def PCAAnalyzer_init (m n_components : ℕ) : AnalyzerState m :=
  ⟨n_components, none, none, none⟩

/-- Errors of the PCA service.  invalidNComponents is the sklearn
ValueError for n_components greater than min(n_samples, n_features);
indexError is the IndexError raised at line 64 by the eagerly evaluated
f-string argument cumulative_variance[2] whenever fewer than 3
components are retained (re-raised unchanged by the except block);
notFitted is the ValueError of reconstruct_yield_curve line 294;
shapeMismatch is the numpy ValueError for a matmul of misaligned
shapes. -/
inductive PCAError where
  | invalidNComponents : PCAError
  | indexError : PCAError
  | notFitted : PCAError
  | shapeMismatch : PCAError
deriving DecidableEq

/-- Source line 53: mean_curve, the columnwise mean of the yield matrix. -/
def meanOf {nr m : ℕ} (Y : Matrix (Fin nr) (Fin m) ℚ) : Fin m → ℚ :=
  fun a => (∑ i, Y i a) / (nr : ℚ)

/-- Source line 54: centered_data = yield_matrix - mean_curve. -/
def centerOf {nr m : ℕ} (Y : Matrix (Fin nr) (Fin m) ℚ) : Matrix (Fin nr) (Fin m) ℚ :=
  Matrix.of fun i a => Y i a - meanOf Y a

/-- components_ of the fitted PCA: the first k rows of the solver's
eigenvector matrix. -/
def compsOf {nr m : ℕ} (solver : EigenSolver nr m) (Y : Matrix (Fin nr) (Fin m) ℚ)
    (k : ℕ) (hkm : k ≤ m) : Matrix (Fin k) (Fin m) ℚ :=
  (solver (centerOf Y)).1.submatrix (Fin.castLE hkm) id

/-- explained_variance_ of the fitted PCA: the first k eigenvalues. -/
def lamOf {nr m : ℕ} (solver : EigenSolver nr m) (Y : Matrix (Fin nr) (Fin m) ℚ)
    (k : ℕ) (hkm : k ≤ m) : Fin k → ℚ :=
  fun i => (solver (centerOf Y)).2 (Fin.castLE hkm i)

/-- The entries of perform_pca's result dict that the claims mention. -/
structure PCAResult (nr m : ℕ) where
  model : FittedPCA m
  scores : Matrix (Fin nr) (Fin model.k) ℚ
  yield_matrix : Matrix (Fin nr) (Fin m) ℚ
  mean_curve_out : Fin m → ℚ
  variance_explained : List ℚ

/-- perform_pca (lines 31-86) on the extracted yield matrix Y and
maturity labels mats.  It centers the data, fits sklearn PCA with
n_components = self.n_components, overwrites self.maturities,
self.mean_curve and self.pca, and returns scores = fit_transform of the
centered data (the centered data has columnwise mean zero, so sklearn's
internal re-centering is the identity) together with
explained_variance_ratio_.  sklearn raises ValueError when n_components
exceeds min(n_samples, n_features).  After a successful sklearn fit,
line 64 logs the cumulative variance of the first three components; its
f-string argument cumulative_variance[2] is evaluated eagerly, and
cumulative_variance has one entry per retained component, so this
indexing raises IndexError whenever fewer than 3 components are
retained, before the result dict is built.  The try/except of lines
84-86 re-raises every exception unchanged, so perform_pca returns
successfully exactly when 3 <= n_components <= min(n_samples,
n_features).  (On the error paths Python has already assigned
self.maturities and self.mean_curve, and on the IndexError path also a
fitted self.pca; no claim depends on the state after a failed fit,
which is not modelled.) -/
def perform_pca {nr m : ℕ} (solver : EigenSolver nr m) (st : AnalyzerState m)
    (Y : Matrix (Fin nr) (Fin m) ℚ) (mats : List String) :
    Except PCAError (AnalyzerState m × PCAResult nr m) :=
  if h : st.n_components ≤ min nr m then
    if 3 ≤ st.n_components then
    let hkm : st.n_components ≤ m := h.trans (Nat.min_le_right nr m)
    .ok ({ st with
             pca := some ⟨st.n_components, compsOf solver Y st.n_components hkm,
                          lamOf solver Y st.n_components hkm⟩
             mean_curve := some (meanOf Y)
             maturities := some mats },
         { model := ⟨st.n_components, compsOf solver Y st.n_components hkm,
                     lamOf solver Y st.n_components hkm⟩
           scores := centerOf Y * (compsOf solver Y st.n_components hkm)ᵀ
           yield_matrix := Y
           mean_curve_out := meanOf Y
           variance_explained :=
             List.ofFn fun i : Fin st.n_components =>
               lamOf solver Y st.n_components hkm i / totalVariance (centerOf Y) })
    else .error .indexError
  else .error .invalidNComponents

/-- Entry i c of a score matrix under numpy slicing scores[:, :n]: the
entry when c is inside the sliced width, 0-padding never reached by the
faithful index range. -/
def matGetD {nr j : ℕ} (M : Matrix (Fin nr) (Fin j) ℚ) (i : Fin nr) (c : ℕ) : ℚ :=
  if h : c < j then M i ⟨c, h⟩ else 0

/-- Row c, column a of a components matrix under numpy slicing
components[:n]. -/
def rowGetD {k m : ℕ} (M : Matrix (Fin k) (Fin m) ℚ) (c : ℕ) (a : Fin m) : ℚ :=
  if h : c < k then M ⟨c, h⟩ a else 0

/-- reconstruct_yield_curve (lines 282-303): raises ValueError if no fit
has stored a model (line 293); otherwise returns
scores[:, :n] @ components_[:n] + mean_curve.  numpy slicing stops at the
actual width, so the matmul multiplies min n k rows of components_ with
min n j columns of scores and raises a shape ValueError if the two
differ. -/
def reconstruct_yield_curve {m nr j : ℕ} (st : AnalyzerState m)
    (scores : Matrix (Fin nr) (Fin j) ℚ) (n : ℕ) :
    Except PCAError (Matrix (Fin nr) (Fin m) ℚ) :=
  match st.pca, st.mean_curve with
  | some model, some mc =>
    if min n model.k = min n j then
      .ok (Matrix.of fun i a =>
        (∑ c ∈ Finset.range (min n model.k),
          matGetD scores i c * rowGetD model.components c a) + mc a)
    else .error .shapeMismatch
  | _, _ => .error .notFitted

/-- Mean absolute error between two matrices, the comparison metric of
the round-trip property. -/
def mae {nr m : ℕ} (A B : Matrix (Fin nr) (Fin m) ℚ) : ℚ :=
  (∑ i, ∑ a, |A i a - B i a|) / ((nr : ℚ) * (m : ℚ))

/-- Test-harness composition for the round-trip property: fit a fresh
analyzer on Y, reconstruct from the full score matrix with n equal to
the model's retained rank, and measure the mean absolute error against
the original yield matrix.  A failing fit or reconstruction is reported
as -1 (no valid error value). -/
def roundtripMAE {nr m : ℕ} (solver : EigenSolver nr m) (ncomp : ℕ)
    (Y : Matrix (Fin nr) (Fin m) ℚ) : ℚ :=
  match perform_pca solver (PCAAnalyzer_init m ncomp) Y [] with
  | .ok (st1, res) =>
    match reconstruct_yield_curve st1 res.scores res.model.k with
    | .ok R => mae R Y
    | .error _ => -1
  | .error _ => -1

/-- Test-harness accessor: the variance_explained list of a fresh fit,
or the empty list if the fit fails. -/
def variance_explained_of {nr m : ℕ} (solver : EigenSolver nr m) (ncomp : ℕ)
    (Y : Matrix (Fin nr) (Fin m) ℚ) : List ℚ :=
  match perform_pca solver (PCAAnalyzer_init m ncomp) Y [] with
  | .ok (_, res) => res.variance_explained
  | .error _ => []

/-- Test-harness accessor: the retained component count of a fresh fit,
none if the fit fails. -/
def fitRetainedK {nr m : ℕ} (solver : EigenSolver nr m) (ncomp : ℕ)
    (Y : Matrix (Fin nr) (Fin m) ℚ) : Option ℕ :=
  match perform_pca solver (PCAAnalyzer_init m ncomp) Y [] with
  | .ok (_, res) => some res.model.k
  | .error _ => none

/-- Test-harness accessor: the analyzer state left behind by a fit on a
given starting state (the state itself if the fit raised). -/
def fitStateOf {nr m : ℕ} (solver : EigenSolver nr m) (st : AnalyzerState m)
    (Y : Matrix (Fin nr) (Fin m) ℚ) (mats : List String) : AnalyzerState m :=
  match perform_pca solver st Y mats with
  | .ok (st1, _) => st1
  | .error _ => st

/-- Test-harness accessor: entry (0,0) of a reconstruction result, -1000
on error. -/
def recEntry {m nr : ℕ} (e : Except PCAError (Matrix (Fin (nr + 1)) (Fin (m + 1)) ℚ)) : ℚ :=
  match e with
  | .ok M => M 0 0
  | .error _ => -1000

/-! ## Algebraic consequences of the eigendecomposition contract -/

lemma nr_cast_pos {nr : ℕ} (h2 : 2 ≤ nr) : (0 : ℚ) < (nr : ℚ) - 1 := by
  have : (2 : ℚ) ≤ (nr : ℚ) := by exact_mod_cast h2
  linarith

lemma CtC_of_decomp {nr m : ℕ} {C : Matrix (Fin nr) (Fin m) ℚ}
    {V : Matrix (Fin m) (Fin m) ℚ} {L : Fin m → ℚ} (h2 : 2 ≤ nr)
    (hcov : covMatrix C = Vᵀ * Matrix.diagonal L * V) :
    Cᵀ * C = ((nr : ℚ) - 1) • (Vᵀ * Matrix.diagonal L * V) := by
  have hne : ((nr : ℚ) - 1) ≠ 0 := ne_of_gt (nr_cast_pos h2)
  have h1 : ((nr : ℚ) - 1) • covMatrix C = Cᵀ * C := by
    rw [covMatrix, smul_smul, mul_inv_cancel₀ hne, one_smul]
  rw [← h1, hcov]

lemma MtM_of_decomp {nr m : ℕ} {C : Matrix (Fin nr) (Fin m) ℚ}
    {V : Matrix (Fin m) (Fin m) ℚ} {L : Fin m → ℚ} (h2 : 2 ≤ nr)
    (hd : IsEigenDecomp C V L) :
    (C * Vᵀ)ᵀ * (C * Vᵀ) = ((nr : ℚ) - 1) • Matrix.diagonal L := by
  obtain ⟨hVVt, hcov, _⟩ := hd
  have h1 : (C * Vᵀ)ᵀ * (C * Vᵀ) = V * (Cᵀ * C) * Vᵀ := by
    rw [Matrix.transpose_mul, Matrix.transpose_transpose, Matrix.mul_assoc,
      Matrix.mul_assoc, Matrix.mul_assoc]
  rw [h1, CtC_of_decomp h2 hcov, Matrix.mul_smul, Matrix.smul_mul]
  congr 1
  calc V * (Vᵀ * Matrix.diagonal L * V) * Vᵀ
      = V * Vᵀ * Matrix.diagonal L * V * Vᵀ := by
        simp only [Matrix.mul_assoc]
    _ = Matrix.diagonal L := by
        rw [hVVt, Matrix.one_mul, Matrix.mul_assoc, hVVt, Matrix.mul_one]

lemma eig_sq {nr m : ℕ} {C : Matrix (Fin nr) (Fin m) ℚ}
    {V : Matrix (Fin m) (Fin m) ℚ} {L : Fin m → ℚ} (h2 : 2 ≤ nr)
    (hd : IsEigenDecomp C V L) (i : Fin m) :
    ((nr : ℚ) - 1) * L i = ∑ r, (C * Vᵀ) r i * (C * Vᵀ) r i := by
  have h := MtM_of_decomp h2 hd
  have h2e := congrFun (congrFun h i) i
  simp only [Matrix.mul_apply, Matrix.transpose_apply, Matrix.smul_apply,
    Matrix.diagonal_apply_eq, smul_eq_mul] at h2e
  simp only [Matrix.mul_apply, Matrix.transpose_apply]
  exact h2e.symm

lemma eig_nonneg {nr m : ℕ} {C : Matrix (Fin nr) (Fin m) ℚ}
    {V : Matrix (Fin m) (Fin m) ℚ} {L : Fin m → ℚ} (h2 : 2 ≤ nr)
    (hd : IsEigenDecomp C V L) (i : Fin m) : 0 ≤ L i := by
  have hs := eig_sq h2 hd i
  have hnn : (0 : ℚ) ≤ ∑ r, (C * Vᵀ) r i * (C * Vᵀ) r i :=
    Finset.sum_nonneg fun r _ => mul_self_nonneg _
  nlinarith [nr_cast_pos h2]

lemma eig_zero_col {nr m : ℕ} {C : Matrix (Fin nr) (Fin m) ℚ}
    {V : Matrix (Fin m) (Fin m) ℚ} {L : Fin m → ℚ} (h2 : 2 ≤ nr)
    (hd : IsEigenDecomp C V L) (i : Fin m) (hLi : L i = 0) (r : Fin nr) :
    (C * Vᵀ) r i = 0 := by
  have hs := eig_sq h2 hd i
  rw [hLi, mul_zero] at hs
  have := (Finset.sum_eq_zero_iff_of_nonneg
    (fun r _ => mul_self_nonneg ((C * Vᵀ) r i))).mp hs.symm r (Finset.mem_univ r)
  exact mul_self_eq_zero.mp this

lemma total_eq_sum_eig {nr m : ℕ} {C : Matrix (Fin nr) (Fin m) ℚ}
    {V : Matrix (Fin m) (Fin m) ℚ} {L : Fin m → ℚ}
    (hd : IsEigenDecomp C V L) : totalVariance C = ∑ i, L i := by
  obtain ⟨hVVt, hcov, _⟩ := hd
  rw [totalVariance, hcov, Matrix.trace_mul_comm, ← Matrix.mul_assoc, hVVt,
    Matrix.one_mul]
  exact Matrix.trace_diagonal L

lemma mem_map_castLEEmb {k m : ℕ} (hk : k ≤ m) (i : Fin m) :
    i ∈ Finset.univ.map (Fin.castLEEmb hk) ↔ i.val < k := by
  constructor
  · rintro h
    obtain ⟨c, _, hc⟩ := Finset.mem_map.mp h
    have hv : (c : ℕ) = (i : ℕ) := by rw [← hc]; rfl
    have := c.isLt
    omega
  · intro h
    exact Finset.mem_map.mpr ⟨⟨i.val, h⟩, Finset.mem_univ _, by ext; rfl⟩

lemma sum_fin_castLE {k m : ℕ} (hk : k ≤ m) (f : Fin m → ℚ)
    (hv : ∀ i : Fin m, k ≤ i.val → f i = 0) :
    ∑ i, f i = ∑ c : Fin k, f (Fin.castLE hk c) := by
  have h1 : ∑ c : Fin k, f (Fin.castLE hk c)
      = ∑ i ∈ Finset.univ.map (Fin.castLEEmb hk), f i :=
    (Finset.sum_map Finset.univ (Fin.castLEEmb hk) f).symm
  rw [h1]
  refine (Finset.sum_subset (Finset.subset_univ _) ?_).symm
  intro i _ hni
  refine hv i ?_
  by_contra hlt
  exact hni ((mem_map_castLEEmb hk i).mpr (by omega))

lemma sum_castLE_le {k m : ℕ} (hk : k ≤ m) (f : Fin m → ℚ)
    (hnn : ∀ i : Fin m, 0 ≤ f i) :
    ∑ c : Fin k, f (Fin.castLE hk c) ≤ ∑ i, f i := by
  have h1 : ∑ c : Fin k, f (Fin.castLE hk c)
      = ∑ i ∈ Finset.univ.map (Fin.castLEEmb hk), f i :=
    (Finset.sum_map Finset.univ (Fin.castLEEmb hk) f).symm
  rw [h1]
  exact Finset.sum_le_sum_of_subset_of_nonneg (Finset.subset_univ _)
    fun i _ _ => hnn i

lemma C_eq_MV {nr m : ℕ} {C : Matrix (Fin nr) (Fin m) ℚ}
    {V : Matrix (Fin m) (Fin m) ℚ} (hVVt : V * Vᵀ = 1) :
    (C * Vᵀ) * V = C := by
  rw [Matrix.mul_assoc, Matrix.mul_eq_one_comm.mp hVVt, Matrix.mul_one]

/-- Entrywise form of products with the truncated eigenvector matrix. -/
lemma comps_mul_entry {nr m k : ℕ} (hk : k ≤ m) (C : Matrix (Fin nr) (Fin m) ℚ)
    (V : Matrix (Fin m) (Fin m) ℚ) (r : Fin nr) (c : Fin k) :
    (C * (V.submatrix (Fin.castLE hk) id)ᵀ) r c = (C * Vᵀ) r (Fin.castLE hk c) := by
  simp [Matrix.mul_apply, Matrix.submatrix, Matrix.transpose_apply]

/-- The exact round-trip identity: when all eigenvalues beyond the
retained rank k vanish, projecting the centered data onto the first k
eigenvector rows and back reproduces the data exactly. -/
theorem roundtrip_matrix {nr m k : ℕ} (hk : k ≤ m)
    (C : Matrix (Fin nr) (Fin m) ℚ) (V : Matrix (Fin m) (Fin m) ℚ)
    (L : Fin m → ℚ) (hd : IsEigenDecomp C V L) (h2 : 2 ≤ nr)
    (htrail : ∀ i : Fin m, k ≤ i.val → L i = 0) :
    C * (V.submatrix (Fin.castLE hk) id)ᵀ * (V.submatrix (Fin.castLE hk) id) = C := by
  ext r a
  have hM : ∀ i : Fin m, k ≤ i.val → (C * Vᵀ) r i = 0 :=
    fun i hi => eig_zero_col h2 hd i (htrail i hi) r
  have step1 : (C * (V.submatrix (Fin.castLE hk) id)ᵀ * (V.submatrix (Fin.castLE hk) id)) r a
      = ∑ c : Fin k, (C * Vᵀ) r (Fin.castLE hk c) * V (Fin.castLE hk c) a := by
    rw [Matrix.mul_apply]
    refine Finset.sum_congr rfl fun c _ => ?_
    rw [comps_mul_entry hk]
    rfl
  have step2 : ∑ i, (C * Vᵀ) r i * V i a
      = ∑ c : Fin k, (C * Vᵀ) r (Fin.castLE hk c) * V (Fin.castLE hk c) a :=
    sum_fin_castLE hk (fun i => (C * Vᵀ) r i * V i a)
      fun i hi => by simp only [hM i hi, zero_mul]
  have step3 : ∑ i, (C * Vᵀ) r i * V i a = C r a := by
    have := congrFun (congrFun (C_eq_MV (C := C) hd.1) r) a
    rw [← this, Matrix.mul_apply]
  rw [step1, ← step2, step3]

/-! ## List-layer lemmas for the stress pipeline -/

lemma getD_eq_zero_of_all_zero {l : List ℚ} (h : ∀ x ∈ l, x = 0) (i : ℕ) :
    l.getD i 0 = 0 := by
  rcases h2 : l[i]? with _ | a
  · simp [List.getD, List.get?_eq_getElem?, h2]
  · have := h a (List.getElem?_mem h2)
    simp [List.getD, List.get?_eq_getElem?, h2, this]

lemma getD_nonneg_of_all {l : List ℚ} (h : ∀ x ∈ l, 0 ≤ x) (i : ℕ) :
    0 ≤ l.getD i 0 := by
  rcases h2 : l[i]? with _ | a
  · simp [List.getD, List.get?_eq_getElem?, h2]
  · have := h a (List.getElem?_mem h2)
    simp [List.getD, List.get?_eq_getElem?, h2, this]

lemma getD_nonpos_of_all {l : List ℚ} (h : ∀ x ∈ l, x ≤ 0) (i : ℕ) :
    l.getD i 0 ≤ 0 := by
  rcases h2 : l[i]? with _ | a
  · simp [List.getD, List.get?_eq_getElem?, h2]
  · have := h a (List.getElem?_mem h2)
    simp [List.getD, List.get?_eq_getElem?, h2, this]

lemma fract_aux_nonneg (pos : ℚ) : 0 ≤ pos - (⌊pos⌋ : ℚ) := by
  have := Int.floor_le pos; linarith

lemma fract_aux_lt_one (pos : ℚ) : pos - (⌊pos⌋ : ℚ) < 1 := by
  have := Int.lt_floor_add_one pos; push_cast at this ⊢; linarith

lemma mem_of_mem_sorted {w : List ℚ} {x : ℚ}
    (h : x ∈ w.insertionSort (· ≤ ·)) : x ∈ w :=
  (List.perm_insertionSort _ w).mem_iff.mp h

/-- A linear-interpolation quantile of non-negative values is non-negative
(regardless of the probability argument). -/
lemma linQuantile_nonneg {w : List ℚ} (hw : ∀ x ∈ w, 0 ≤ x) (p : ℚ) :
    0 ≤ linQuantile w p := by
  rw [linQuantile]
  dsimp only
  split_ifs with h
  · exact le_refl 0
  · set ws := w.insertionSort (· ≤ ·) with hws
    have hmem : ∀ x ∈ ws, 0 ≤ x := fun x hx => hw x (mem_of_mem_sorted hx)
    set pos : ℚ := p * ((ws.length : ℚ) - 1) with hpos
    have hlo : 0 ≤ ws.getD (⌊pos⌋).toNat 0 := getD_nonneg_of_all hmem _
    have hhi : 0 ≤ ws.getD (min ((⌊pos⌋).toNat + 1) (ws.length - 1)) 0 :=
      getD_nonneg_of_all hmem _
    have hf0 := fract_aux_nonneg pos
    have hf1 := fract_aux_lt_one pos
    nlinarith

/-- A linear-interpolation quantile of non-positive values is
non-positive. -/
lemma linQuantile_nonpos {w : List ℚ} (hw : ∀ x ∈ w, x ≤ 0) (p : ℚ) :
    linQuantile w p ≤ 0 := by
  rw [linQuantile]
  dsimp only
  split_ifs with h
  · exact le_refl 0
  · set ws := w.insertionSort (· ≤ ·) with hws
    have hmem : ∀ x ∈ ws, x ≤ 0 := fun x hx => hw x (mem_of_mem_sorted hx)
    set pos : ℚ := p * ((ws.length : ℚ) - 1) with hpos
    have hlo : ws.getD (⌊pos⌋).toNat 0 ≤ 0 := getD_nonpos_of_all hmem _
    have hhi : ws.getD (min ((⌊pos⌋).toNat + 1) (ws.length - 1)) 0 ≤ 0 :=
      getD_nonpos_of_all hmem _
    have hf0 := fract_aux_nonneg pos
    have hf1 := fract_aux_lt_one pos
    nlinarith

/-- An all-zero window has quantile exactly 0. -/
lemma linQuantile_all_zero {w : List ℚ} (hw : ∀ x ∈ w, x = 0) (p : ℚ) :
    linQuantile w p = 0 := by
  rw [linQuantile]
  dsimp only
  split_ifs with h
  · rfl
  · have hmem : ∀ x ∈ w.insertionSort (· ≤ ·), x = 0 :=
      fun x hx => hw x (mem_of_mem_sorted hx)
    rw [getD_eq_zero_of_all_zero hmem, getD_eq_zero_of_all_zero hmem]
    ring

lemma length_lagDiff (s : List ℚ) (L : ℕ) : (lagDiff s L).length = s.length - L := by
  simp [lagDiff]

lemma length_rollingQuantile (xs : List ℚ) (window : ℕ) (p : ℚ) :
    (rollingQuantile xs window p).length = xs.length := by
  simp [rollingQuantile]

lemma getD_rollingQuantile {xs : List ℚ} {t : ℕ} (window : ℕ) (p : ℚ)
    (ht : t < xs.length) :
    (rollingQuantile xs window p).getD t 0
      = linQuantile ((xs.take (t + 1)).drop (t + 1 - window)) p := by
  have hlen : t < (rollingQuantile xs window p).length := by
    rw [length_rollingQuantile]; exact ht
  rw [List.getD_eq_getElem _ _ hlen]
  simp [rollingQuantile]

lemma mem_window {xs : List ℚ} {x : ℚ} {a b : ℕ} (h : x ∈ (xs.take a).drop b) :
    x ∈ xs :=
  List.mem_of_mem_take (List.mem_of_mem_drop h)

lemma getD_zipWith_add {a b : List ℚ} {i : ℕ} (ha : i < a.length) (hb : i < b.length) :
    (List.zipWith (fun x y => x + y) a b).getD i 0 = a.getD i 0 + b.getD i 0 := by
  have hl : i < (List.zipWith (fun x y => x + y) a b).length := by
    rw [List.length_zipWith]; omega
  rw [List.getD_eq_getElem _ _ hl, List.getD_eq_getElem _ _ ha,
    List.getD_eq_getElem _ _ hb]
  exact List.getElem_zipWith

/-- Every entry of the clipped-up difference series is non-negative. -/
lemma clipUp_nonneg {d : List ℚ} {x : ℚ} (h : x ∈ clipUp d) : 0 ≤ x := by
  obtain ⟨y, _, hy⟩ := List.mem_map.mp h
  rw [← hy]; exact le_max_right y 0

/-- Every entry of the clipped-down difference series is non-positive. -/
lemma clipDown_nonpos {d : List ℚ} {x : ℚ} (h : x ∈ clipDown d) : x ≤ 0 := by
  obtain ⟨y, _, hy⟩ := List.mem_map.mp h
  rw [← hy]; exact min_le_right y 0

/-- The rolling up-quantile series is non-negative at every position. -/
lemma quantileUpSeries_nonneg (s : List ℚ) (q : ℚ) (W L : ℕ) (t : ℕ)
    (ht : t < s.length - L) : 0 ≤ (quantileUpSeries s q W L).getD t 0 := by
  have hlen : t < (clipUp (lagDiff s L)).length := by
    simp [clipUp, length_lagDiff]; omega
  rw [quantileUpSeries, getD_rollingQuantile _ _ hlen]
  exact linQuantile_nonneg (fun x hx => clipUp_nonneg (mem_window hx)) q

/-- The rolling down-quantile series is non-positive at every position. -/
lemma quantileDownSeries_nonpos (s : List ℚ) (q : ℚ) (W L : ℕ) (t : ℕ)
    (ht : t < s.length - L) : (quantileDownSeries s q W L).getD t 0 ≤ 0 := by
  have hlen : t < (clipDown (lagDiff s L)).length := by
    simp [clipDown, length_lagDiff]; omega
  rw [quantileDownSeries, getD_rollingQuantile _ _ hlen]
  exact linQuantile_nonpos (fun x hx => clipDown_nonpos (mem_window hx)) (1 - q)

/-! ## Specification-side formulations of the stress algorithm (claim C5)

These definitions restate the algorithm the way the specification words
it; the theorems below prove them equal to the embedded source
pipeline. -/

/-- Spec side of the differencing step: for every position t of the
date-sorted series that has an observation L steps earlier, the value
score[t] - score[t-L]; positions without a valid lag are dropped. -/
def specDiff (s : List ℚ) (L : ℕ) : List ℚ :=
  (List.range s.length).filterMap fun t =>
    if L ≤ t then some (s.getD t 0 - s.getD (t - L) 0) else none

/-- The last n entries of a list. -/
def takeLast (l : List ℚ) (n : ℕ) : List ℚ := l.drop (l.length - n)

/-- Spec side of the quantile estimator: standard linear interpolation
between the order statistics at the floor and ceiling of the position
p * (n - 1) in the sorted window. -/
def specQuantile (w : List ℚ) (p : ℚ) : ℚ :=
  if (w.insertionSort (· ≤ ·)).length = 0 then 0
  else
    (1 - Int.fract (p * (((w.insertionSort (· ≤ ·)).length : ℚ) - 1)))
        * (w.insertionSort (· ≤ ·)).getD
            (⌊p * (((w.insertionSort (· ≤ ·)).length : ℚ) - 1)⌋).toNat 0
      + Int.fract (p * (((w.insertionSort (· ≤ ·)).length : ℚ) - 1))
        * (w.insertionSort (· ≤ ·)).getD
            (⌈p * (((w.insertionSort (· ≤ ·)).length : ℚ) - 1)⌉).toNat 0

/-- Spec side of the rolling quantile: the quantile over the window of
the last (up to) window diff entries ending at t. -/
def specRollingQuantile (xs : List ℚ) (window : ℕ) (p : ℚ) : List ℚ :=
  (List.range xs.length).map fun t => specQuantile (takeLast (xs.take (t + 1)) window) p

lemma specDiff_eq_lagDiff (s : List ℚ) (L : ℕ) : lagDiff s L = specDiff s L := by
  by_cases hL : s.length ≤ L
  · have h1 : lagDiff s L = [] := by
      rw [lagDiff, List.drop_eq_nil_of_le hL]
      rfl
    have h2 : specDiff s L = [] := by
      rw [specDiff]
      refine List.filterMap_eq_nil_iff.mpr fun t ht => ?_
      have : t < s.length := List.mem_range.mp ht
      rw [if_neg (by omega)]
    rw [h1, h2]
  · push_neg at hL
    have hsplit : s.length = L + (s.length - L) := by omega
    rw [specDiff]
    rw [show List.range s.length
        = List.range L ++ (List.range (s.length - L)).map (L + ·) from by
      rw [← List.range_add, ← hsplit]]
    rw [List.filterMap_append]
    have hfirst : (List.range L).filterMap (fun t =>
        if L ≤ t then some (s.getD t 0 - s.getD (t - L) 0) else none) = [] := by
      refine List.filterMap_eq_nil_iff.mpr fun t ht => ?_
      have : t < L := List.mem_range.mp ht
      rw [if_neg (by omega)]
    have hsecond : ((List.range (s.length - L)).map (L + ·)).filterMap (fun t =>
        if L ≤ t then some (s.getD t 0 - s.getD (t - L) 0) else none)
        = (List.range (s.length - L)).map fun t => s.getD (L + t) 0 - s.getD t 0 := by
      rw [List.filterMap_map]
      have hcg : ∀ t ∈ List.range (s.length - L),
          ((fun t => if L ≤ t then some (s.getD t 0 - s.getD (t - L) 0) else none)
            ∘ (L + ·)) t
          = some (s.getD (L + t) 0 - s.getD t 0) := by
        intro t _
        simp only [Function.comp_apply]
        rw [if_pos (Nat.le_add_right L t), Nat.add_sub_cancel_left]
      rw [List.filterMap_congr hcg]
      exact List.filterMap_eq_map _ ▸ rfl
    rw [hfirst, hsecond, List.nil_append]
    refine List.ext_getElem ?_ ?_
    · simp [lagDiff]
    · intro i h1 h2
      have hi : i < s.length - L := by
        simpa [lagDiff] using h1
      have hiL : L + i < s.length := by omega
      have hd1 : i < (s.drop L).length := by
        simp only [List.length_drop]
        omega
      have hd2 : i < s.length := by omega
      rw [List.getElem_map]
      rw [List.getElem_range]
      have e1 : (lagDiff s L)[i] = (s.drop L)[i] - s[i] := List.getElem_zipWith
      rw [e1, List.getElem_drop s,
        List.getD_eq_getElem s 0 hiL, List.getD_eq_getElem s 0 hd2]

lemma window_slice_eq (xs : List ℚ) (t window : ℕ) (ht : t < xs.length) :
    (xs.take (t + 1)).drop (t + 1 - window) = takeLast (xs.take (t + 1)) window := by
  rw [takeLast, List.length_take, min_eq_left (by omega)]

lemma linQuantile_eq_specQuantile (w : List ℚ) (p : ℚ) (hp0 : 0 ≤ p) (hp1 : p ≤ 1) :
    linQuantile w p = specQuantile w p := by
  rw [linQuantile, specQuantile]
  dsimp only
  split_ifs with h
  · rfl
  · set ws := w.insertionSort (· ≤ ·) with hws
    set n := ws.length with hn
    have hn1 : 1 ≤ n := by omega
    set pos : ℚ := p * ((n : ℚ) - 1) with hposdef
    have hcast1 : (1 : ℚ) ≤ (n : ℚ) := by exact_mod_cast hn1
    have hpos0 : 0 ≤ pos := mul_nonneg hp0 (by linarith)
    have hposmax : pos ≤ (n : ℚ) - 1 := by nlinarith
    have hfl0 : 0 ≤ ⌊pos⌋ := Int.floor_nonneg.mpr hpos0
    have hfract : Int.fract pos = pos - (⌊pos⌋ : ℚ) := rfl
    by_cases hz : Int.fract pos = 0
    · have hzz : pos - (⌊pos⌋ : ℚ) = 0 := by rw [← hfract, hz]
      rw [hzz, hz]
      ring
    · have hfpos : 0 < Int.fract pos :=
        lt_of_le_of_ne (Int.fract_nonneg pos) (Ne.symm hz)
      have hlt : (⌊pos⌋ : ℚ) < pos := by
        have := hfract ▸ hfpos
        linarith
      have hceil : ⌈pos⌉ = ⌊pos⌋ + 1 := by
        have h1 := Int.ceil_le_floor_add_one pos
        have h2 : (⌊pos⌋ : ℚ) < (⌈pos⌉ : ℚ) := lt_of_lt_of_le hlt (Int.le_ceil pos)
        have h3 : ⌊pos⌋ < ⌈pos⌉ := by exact_mod_cast h2
        omega
      have hposlt : pos < (n : ℚ) - 1 := by
        rcases lt_or_eq_of_le hposmax with h4 | h4
        · exact h4
        · exfalso
          apply hz
          rw [h4]
          have : ((n : ℚ) - 1) = ((n - 1 : ℕ) : ℚ) := by
            push_cast [hn1]
            ring
          rw [this, Int.fract_natCast]
      have hflt : ⌊pos⌋ + 1 ≤ (n : ℤ) - 1 := by
        have h5 : (⌊pos⌋ : ℚ) < (n : ℚ) - 1 := lt_of_le_of_lt (Int.floor_le pos) hposlt
        have h6 : (((n : ℤ) - 1 : ℤ) : ℚ) = (n : ℚ) - 1 := by push_cast; ring
        have h7 : ⌊pos⌋ < (n : ℤ) - 1 := by
          rw [← h6] at h5
          exact_mod_cast h5
        omega
      have htn : (⌊pos⌋).toNat + 1 ≤ n - 1 := by omega
      have hmin : min ((⌊pos⌋).toNat + 1) (n - 1) = (⌊pos⌋).toNat + 1 :=
        min_eq_left htn
      have hctn : (⌈pos⌉).toNat = (⌊pos⌋).toNat + 1 := by
        rw [hceil]
        omega
      rw [hmin, hctn, hfract]
      ring

lemma rollingQuantile_eq_spec (xs : List ℚ) (window : ℕ) (p : ℚ)
    (hp0 : 0 ≤ p) (hp1 : p ≤ 1) :
    rollingQuantile xs window p = specRollingQuantile xs window p := by
  rw [rollingQuantile, specRollingQuantile]
  refine List.map_congr_left fun t ht => ?_
  have htl : t < xs.length := List.mem_range.mp ht
  rw [window_slice_eq xs t window htl, linQuantile_eq_specQuantile _ p hp0 hp1]

/-- The ok branch of generate_scenarios returns exactly the columnwise
stressed series of the pipeline. -/
lemma generate_scenarios_ok {scores : List (Fin 3 → ℚ)} {q : ℚ} {W L : ℕ}
    {res : StressResult} (h : generate_scenarios scores q W L = .ok res) :
    ∀ c : Fin 3,
      res.stressedUp c = stressedUpSeries (scores.map fun f => f c) q W L
        ∧ res.stressedDown c = stressedDownSeries (scores.map fun f => f c) q W L := by
  intro c
  simp only [generate_scenarios] at h
  rcases hm : (lagDiff (List.map (fun f => f 0) scores) L).length with _ | n
  · rw [hm] at h
    exact absurd h (by simp)
  · rw [hm] at h
    simp only [Except.ok.injEq] at h
    rw [← h]
    exact ⟨rfl, rfl⟩

/-! ## Claims C4, C5, C6 -/

/-- C4: at every valid post-lag date t, the stressed scores of
generate_scenarios bracket the base scores, stressed_down <= score <=
stressed_up, because the up-quantile is a rolling quantile of
componentwise max(diff, 0) values (hence non-negative) and the
down-quantile a rolling quantile of componentwise min(diff, 0) values
(hence non-positive); this holds for every factor column, so in
particular for factors 1-3. -/
theorem C4_stress_bounds :
    (∀ (s : List ℚ) (q : ℚ) (W L t : ℕ), t < s.length - L →
      (alignedScores s L).getD t 0 ≤ (stressedUpSeries s q W L).getD t 0
        ∧ (stressedDownSeries s q W L).getD t 0 ≤ (alignedScores s L).getD t 0)
    ∧ ∀ (scores : List (Fin 3 → ℚ)) (q : ℚ) (W L : ℕ) (res : StressResult),
        generate_scenarios scores q W L = .ok res →
        ∀ c : Fin 3,
          res.stressedUp c = stressedUpSeries (scores.map fun f => f c) q W L
            ∧ res.stressedDown c = stressedDownSeries (scores.map fun f => f c) q W L := by
  constructor
  · intro s q W L t ht
    have hta : t < (alignedScores s L).length := by
      simp [alignedScores]; omega
    have htu : t < (quantileUpSeries s q W L).length := by
      simp [quantileUpSeries, length_rollingQuantile, clipUp, length_lagDiff]; omega
    have htd : t < (quantileDownSeries s q W L).length := by
      simp [quantileDownSeries, length_rollingQuantile, clipDown, length_lagDiff]; omega
    have hu : (stressedUpSeries s q W L).getD t 0
        = (alignedScores s L).getD t 0 + (quantileUpSeries s q W L).getD t 0 :=
      getD_zipWith_add hta htu
    have hd : (stressedDownSeries s q W L).getD t 0
        = (alignedScores s L).getD t 0 + (quantileDownSeries s q W L).getD t 0 :=
      getD_zipWith_add hta htd
    have hq1 := quantileUpSeries_nonneg s q W L t ht
    have hq2 := quantileDownSeries_nonpos s q W L t ht
    constructor
    · rw [hu]; linarith
    · rw [hd]; linarith
  · exact fun scores q W L res h => generate_scenarios_ok h

/-- C4 witness: on a concrete two-observation series with lag 1,
window 1 and quantile 3/4, position 0 is valid and the bounds hold. -/
theorem C4_stress_bounds_witness :
    0 < [(0 : ℚ), 1].length - 1
      ∧ ((alignedScores [(0 : ℚ), 1] 1).getD 0 0
            ≤ (stressedUpSeries [(0 : ℚ), 1] (3/4) 1 1).getD 0 0
        ∧ (stressedDownSeries [(0 : ℚ), 1] (3/4) 1 1).getD 0 0
            ≤ (alignedScores [(0 : ℚ), 1] 1).getD 0 0) :=
  ⟨by norm_num, C4_stress_bounds.1 [(0 : ℚ), 1] (3/4) 1 1 0 (by norm_num)⟩

/-- C5: the stress algorithm differences the date-sorted series with lag
L dropping entries without a valid lag, computes rolling
linear-interpolation quantiles over windows of (up to) W*L consecutive
diff entries ending at t with a minimum of one entry, at probability q
for the up series and 1-q for the down series, and an all-zero window
yields exactly 0.  Each conjunct equates the embedded source pipeline
with the specification-side formulation. -/
theorem C5_stress_algorithm :
    (∀ (s : List ℚ) (L : ℕ), lagDiff s L = specDiff s L)
    ∧ (∀ (xs : List ℚ) (window : ℕ) (p : ℚ), 0 ≤ p → p ≤ 1 →
        rollingQuantile xs window p = specRollingQuantile xs window p)
    ∧ (∀ (s : List ℚ) (q : ℚ) (W L : ℕ), 0 ≤ q → q ≤ 1 →
        quantileUpSeries s q W L
            = specRollingQuantile (clipUp (specDiff s L)) (W * L) q
          ∧ quantileDownSeries s q W L
            = specRollingQuantile (clipDown (specDiff s L)) (W * L) (1 - q))
    ∧ (∀ (xs : List ℚ) (window t : ℕ), t < xs.length → 1 ≤ window →
        ((xs.take (t + 1)).drop (t + 1 - window)).length = min (t + 1) window
          ∧ 1 ≤ ((xs.take (t + 1)).drop (t + 1 - window)).length)
    ∧ (∀ (w : List ℚ) (p : ℚ), (∀ x ∈ w, x = 0) → linQuantile w p = 0) := by
  refine ⟨fun s L => specDiff_eq_lagDiff s L, ?_, ?_, ?_, ?_⟩
  · exact fun xs window p hp0 hp1 => rollingQuantile_eq_spec xs window p hp0 hp1
  · intro s q W L hq0 hq1
    constructor
    · rw [quantileUpSeries, ← specDiff_eq_lagDiff]
      exact rollingQuantile_eq_spec _ _ _ hq0 hq1
    · rw [quantileDownSeries, ← specDiff_eq_lagDiff]
      exact rollingQuantile_eq_spec _ _ _ (by linarith) (by linarith)
  · intro xs window t ht hw
    constructor
    · simp only [List.length_drop, List.length_take]
      omega
    · simp only [List.length_drop, List.length_take]
      omega
  · exact fun w p hz => linQuantile_all_zero hz p

/-- C5 witness: the rolling-quantile refinement applied at a concrete
series, window and probability. -/
theorem C5_stress_algorithm_witness :
    (0 : ℚ) ≤ 1/2 ∧ (1 : ℚ)/2 ≤ 1
      ∧ rollingQuantile [(1 : ℚ), 2] 1 (1/2) = specRollingQuantile [(1 : ℚ), 2] 1 (1/2) :=
  ⟨by norm_num, by norm_num,
    C5_stress_algorithm.2.1 [(1 : ℚ), 2] 1 (1/2) (by norm_num) (by norm_num)⟩

/-- C6 counterexample: on a two-observation series with lag 30 the
source fails, but with the IndexError of reading the last element of the
empty valid index, which is not the InsufficientHistoryError the claim
demands. -/
theorem C6_counterexample :
    generate_scenarios [fun _ => (1 : ℚ), fun _ => 2] (995/1000) 24 30
        = .error .indexOutOfBounds
      ∧ StressError.indexOutOfBounds ≠ StressError.insufficientHistory := by
  constructor
  · rfl
  · intro h
    exact absurd h (by simp)

/-- C6 amended: on fewer than L+1 observations generate_scenarios does
fail, but by the unhandled IndexError from valid_idx[-1] on the empty
post-lag index (re-raised unchanged by the except block), not by a
descriptive InsufficientHistoryError. -/
theorem C6_amended (scores : List (Fin 3 → ℚ)) (q : ℚ) (W L : ℕ)
    (h : scores.length < L + 1) :
    generate_scenarios scores q W L = .error .indexOutOfBounds := by
  have hl : (lagDiff (List.map (fun f => f 0) scores) L).length = 0 := by
    rw [length_lagDiff, List.length_map]
    omega
  simp only [generate_scenarios]
  rw [hl]

/-- C6 amended witness: a concrete short series. -/
theorem C6_amended_witness :
    ([fun _ => (1 : ℚ), fun _ => 2] : List (Fin 3 → ℚ)).length < 30 + 1
      ∧ generate_scenarios [fun _ => (1 : ℚ), fun _ => 2] (1/2) 24 30
          = .error .indexOutOfBounds :=
  ⟨by norm_num, C6_amended [fun _ => (1 : ℚ), fun _ => 2] (1/2) 24 30 (by norm_num)⟩

/-! ## Claim C10: column selection and maturity labels -/

lemma replaceSRAux_eq_self : ∀ (r : List Char), containsSR r = false → replaceSRAux r = r
  | [], _ => rfl
  | [_], _ => rfl
  | [_, _], _ => rfl
  | c1 :: c2 :: c3 :: rest, h => by
    rw [containsSR] at h
    rw [replaceSRAux]
    by_cases hc : c1 = 'S' ∧ c2 = 'R' ∧ c3 = '_'
    · rw [if_pos hc] at h
      exact absurd h (by simp)
    · rw [if_neg hc] at h
      rw [if_neg hc, replaceSRAux_eq_self (c2 :: c3 :: rest) h]

lemma map_fst_filter_startsWith (l : List (String × List ℚ)) :
    ((l.filter fun c => startsWithSR c.1).map Prod.fst)
      = (l.map Prod.fst).filter fun c => startsWithSR c := by
  induction l with
  | nil => rfl
  | cons c rest ih =>
    by_cases hc : startsWithSR c.1
    · simp [hc, List.filter_cons, ih]
    · simp only [Bool.not_eq_true] at hc
      simp [List.filter_cons, hc, ih]

lemma filter_startsWith_idem (l : List (String × List ℚ)) :
    ((l.filter fun c => startsWithSR c.1).filter fun c => startsWithSR c.1)
      = l.filter fun c => startsWithSR c.1 := by
  rw [List.filter_filter]
  refine List.filter_congr fun c _ => ?_
  cases h : startsWithSR c.1 <;> simp [h]

lemma filter_startsWith_idem_str (l : List String) :
    ((l.filter fun c => startsWithSR c).filter fun c => startsWithSR c)
      = l.filter fun c => startsWithSR c := by
  rw [List.filter_filter]
  refine List.filter_congr fun c _ => ?_
  cases h : startsWithSR c <;> simp [h]

lemma maturity_cols_srOnly (t : YieldTable) :
    maturity_cols (srOnlyTable t) = maturity_cols t := by
  show ((t.cols.filter fun c => startsWithSR c.1).map Prod.fst).filter
      (fun c => startsWithSR c) = _
  rw [map_fst_filter_startsWith]
  exact filter_startsWith_idem_str (t.cols.map Prod.fst)

lemma yieldCols_srOnly (t : YieldTable) :
    yieldCols (srOnlyTable t) = yieldCols t := by
  show ((t.cols.filter fun c => startsWithSR c.1).filter fun c => startsWithSR c.1).map
      Prod.snd = _
  rw [filter_startsWith_idem]
  rfl

/-- C10 counterexample: on a table whose single value column is named
SR_1SR_2Y, the source labels the maturity 12Y (str.replace removes every
occurrence of SR_), while the claim's prefix-stripping yields 1SR_2Y. -/
theorem C10_counterexample :
    maturity_cols ⟨[0], [("SR_1SR_2Y", [1])]⟩ = ["SR_1SR_2Y"]
      ∧ maturitiesOf ⟨[0], [("SR_1SR_2Y", [1])]⟩ = ["12Y"]
      ∧ specLabel "SR_1SR_2Y" = "1SR_2Y"
      ∧ ("12Y" : String) ≠ "1SR_2Y" := by
  refine ⟨rfl, rfl, rfl, ?_⟩
  intro h
  exact absurd h (by decide)

/-- C10 amended: the curve matrix and labels come from exactly the
SR_-prefixed columns in original order — deleting every non-SR_ value
column changes neither the selected names, the yield columns, nor the
labels — and each label is the column name with every occurrence of SR_
removed, which equals stripping the three leading characters whenever
SR_ does not occur again in the remainder. -/
theorem C10_amended :
    (∀ t : YieldTable, maturity_cols (srOnlyTable t) = maturity_cols t
      ∧ yieldCols (srOnlyTable t) = yieldCols t
      ∧ maturitiesOf (srOnlyTable t) = maturitiesOf t)
    ∧ (∀ t : YieldTable, maturitiesOf t = (maturity_cols t).map replaceSR)
    ∧ ∀ rest : List Char, containsSR rest = false →
        replaceSR ⟨'S' :: 'R' :: '_' :: rest⟩ = ⟨rest⟩ := by
  refine ⟨fun t => ?_, fun t => rfl, fun rest h => ?_⟩
  · exact ⟨maturity_cols_srOnly t, yieldCols_srOnly t,
      congrArg (List.map replaceSR) (maturity_cols_srOnly t)⟩
  · have hstep : replaceSRAux ('S' :: 'R' :: '_' :: rest) = replaceSRAux rest := by
      rw [replaceSRAux, if_pos ⟨rfl, rfl, rfl⟩]
    exact congrArg String.mk (hstep.trans (replaceSRAux_eq_self rest h))

/-! ## Concrete panels with exact rational eigendecompositions

perform_pca only returns when at least 3 components are retained (the
cumulative_variance[2] logging at line 64), so every concrete fit below
uses at least 3 maturities and n_components at least 3.  Each panel is
built from mutually orthogonal zero-sum columns, so its centered
covariance is already diagonal with descending entries and the identity
matrix is an exact eigenvector matrix.  panelB2 is panelA2 shifted up by
one yield unit everywhere and has the same centered data. -/

def panelD : Matrix (Fin 8) (Fin 4) ℚ :=
  !![5,0,0,0; -5,0,0,0; 0,4,0,0; 0,-4,0,0; 0,0,3,0; 0,0,-3,0; 0,0,0,2; 0,0,0,-2]

def eigLD : Fin 4 → ℚ := ![50/7, 32/7, 18/7, 8/7]

/-- The exact decomposition of panelD's centered data (the covariance is
diagonal with distinct entries, so sklearn's eigenvector matrix is the
identity up to row signs). -/
def solverD : EigenSolver 8 4 := fun _ => (1, eigLD)

def panelA2 : Matrix (Fin 4) (Fin 3) ℚ := !![3,0,1; -3,0,1; 0,2,-1; 0,-2,-1]

def panelB2 : Matrix (Fin 4) (Fin 3) ℚ := !![4,1,2; -2,1,2; 1,3,0; 1,-1,0]

def eigL2 : Fin 3 → ℚ := ![6, 8/3, 4/3]

/-- One exact decomposition serving both panelA2 and panelB2, whose
centered matrices coincide. -/
def solverC2 : EigenSolver 4 3 := fun _ => (1, eigL2)

lemma centerOf_panelD : centerOf panelD = panelD := by
  ext i a
  fin_cases i <;> fin_cases a <;>
    norm_num [centerOf, meanOf, panelD, Matrix.of_apply, Fin.sum_univ_succ]

lemma decomp_panelD : IsEigenDecomp (centerOf panelD) 1 eigLD := by
  refine ⟨by rw [Matrix.transpose_one, Matrix.mul_one], ?_, ?_⟩
  · rw [Matrix.transpose_one, Matrix.one_mul, Matrix.mul_one, centerOf_panelD]
    ext i j
    fin_cases i <;> fin_cases j <;>
      norm_num [covMatrix, panelD, eigLD, Matrix.mul_apply, Matrix.smul_apply,
        Fin.sum_univ_succ, Matrix.transpose_apply, Matrix.diagonal_apply,
        Fin.ext_iff, Matrix.vecHead, Matrix.vecTail]
  · intro i j h
    fin_cases i <;> fin_cases j <;> simp_all [eigLD]
    all_goals norm_num

lemma totalVariance_panelD : totalVariance (centerOf panelD) = 108/7 := by
  rw [totalVariance, centerOf_panelD]
  norm_num [covMatrix, panelD, Matrix.trace, Matrix.diag, Matrix.mul_apply,
    Matrix.smul_apply, Fin.sum_univ_succ, Matrix.transpose_apply,
    Matrix.vecHead, Matrix.vecTail]

lemma centerOf_panelA2 : centerOf panelA2 = panelA2 := by
  ext i a
  fin_cases i <;> fin_cases a <;>
    norm_num [centerOf, meanOf, panelA2, Matrix.of_apply, Fin.sum_univ_succ]

lemma centerOf_panelB2 : centerOf panelB2 = panelA2 := by
  ext i a
  fin_cases i <;> fin_cases a <;>
    norm_num [centerOf, meanOf, panelB2, panelA2, Matrix.of_apply, Fin.sum_univ_succ]

lemma decomp_panelA2 : IsEigenDecomp (centerOf panelA2) 1 eigL2 := by
  refine ⟨by rw [Matrix.transpose_one, Matrix.mul_one], ?_, ?_⟩
  · rw [Matrix.transpose_one, Matrix.one_mul, Matrix.mul_one, centerOf_panelA2]
    ext i j
    fin_cases i <;> fin_cases j <;>
      norm_num [covMatrix, panelA2, eigL2, Matrix.mul_apply, Matrix.smul_apply,
        Fin.sum_univ_succ, Matrix.transpose_apply, Matrix.diagonal_apply,
        Fin.ext_iff, Matrix.vecHead, Matrix.vecTail]
  · intro i j h
    fin_cases i <;> fin_cases j <;> simp_all [eigL2]
    all_goals norm_num

lemma decomp_panelB2 : IsEigenDecomp (centerOf panelB2) 1 eigL2 := by
  have h := decomp_panelA2
  rw [IsEigenDecomp, centerOf_panelB2]
  rw [IsEigenDecomp, centerOf_panelA2] at h
  exact h

/-! ## Claims C7 and C9 -/

/-- C7: reconstruct_yield_curve on a freshly initialised analyzer (no
fit has stored a model: self.pca and self.mean_curve are None) raises
the not-fitted ValueError for every scores argument and every component
count, and never returns a curve. -/
theorem C7_reconstruct_not_fitted (m nr j ncomp n : ℕ)
    (scores : Matrix (Fin nr) (Fin j) ℚ) :
    reconstruct_yield_curve (PCAAnalyzer_init m ncomp) scores n
      = .error .notFitted := rfl

/-- C9 counterexample: reconstruct_yield_curve is not a pure function of
its explicit arguments.  panelA2 and panelB2 have identical centered
data (one valid solver output serves both), and both fits succeed with
n_components = 3; yet after fitting panelA2 versus panelB2,
reconstructing from the same explicit score matrix returns different
curves, because reconstruct reads the mean_curve and pca fields the last
perform_pca call stored. -/
theorem C9_counterexample :
    recEntry (reconstruct_yield_curve
        (fitStateOf solverC2 (PCAAnalyzer_init 3 3) panelA2 ["1Y", "2Y", "3Y"])
        (0 : Matrix (Fin 4) (Fin 3) ℚ) 3) = 0
      ∧ recEntry (reconstruct_yield_curve
          (fitStateOf solverC2 (PCAAnalyzer_init 3 3) panelB2 ["1Y", "2Y", "3Y"])
          (0 : Matrix (Fin 4) (Fin 3) ℚ) 3) = 1
      ∧ (0 : ℚ) ≠ 1
      ∧ IsEigenDecomp (centerOf panelA2) 1 eigL2
      ∧ IsEigenDecomp (centerOf panelB2) 1 eigL2
      ∧ solverC2 (centerOf panelA2) = (1, eigL2)
      ∧ solverC2 (centerOf panelB2) = (1, eigL2) := by
  refine ⟨?_, ?_, by norm_num, decomp_panelA2, decomp_panelB2, rfl, rfl⟩
  · norm_num [fitStateOf, perform_pca, reconstruct_yield_curve, recEntry,
      PCAAnalyzer_init, matGetD, rowGetD, compsOf, lamOf, meanOf, solverC2,
      panelA2, Matrix.one_apply, Finset.sum_range_succ, Fin.sum_univ_succ,
      Matrix.zero_apply, Matrix.vecHead, Matrix.vecTail]
  · norm_num [fitStateOf, perform_pca, reconstruct_yield_curve, recEntry,
      PCAAnalyzer_init, matGetD, rowGetD, compsOf, lamOf, meanOf, solverC2,
      panelB2, Matrix.one_apply, Finset.sum_range_succ, Fin.sum_univ_succ,
      Matrix.zero_apply, Matrix.vecHead, Matrix.vecTail]

/-- C9 amended: fit and transform are deterministic — perform_pca's
result does not depend on the previously stored pca/mean_curve/
maturities fields, so fitting the same panel twice gives identical
models and scores — but the decomposer is not stateless: every
successful perform_pca overwrites the instance fields that
reconstruct_yield_curve later reads (see the counterexample for the
resulting impurity of reconstruct). -/
theorem C9_amended :
    (∀ (nr m : ℕ) (solver : EigenSolver nr m) (st1 st2 : AnalyzerState m)
        (Y : Matrix (Fin nr) (Fin m) ℚ) (mats : List String),
        st1.n_components = st2.n_components →
        perform_pca solver st1 Y mats = perform_pca solver st2 Y mats)
    ∧ ∀ (nr m : ℕ) (solver : EigenSolver nr m) (st : AnalyzerState m)
        (Y : Matrix (Fin nr) (Fin m) ℚ) (mats : List String)
        (st1 : AnalyzerState m) (res : PCAResult nr m),
        perform_pca solver st Y mats = .ok (st1, res) →
        st1.pca = some res.model ∧ st1.mean_curve = some (meanOf Y)
          ∧ st1.maturities = some mats := by
  constructor
  · intro nr m solver st1 st2 Y mats h
    obtain ⟨n1, p1, mc1, ma1⟩ := st1
    obtain ⟨n2, p2, mc2, ma2⟩ := st2
    simp only at h
    subst h
    rfl
  · intro nr m solver st Y mats st1 res h
    rw [perform_pca] at h
    by_cases hc : st.n_components ≤ min nr m
    · rw [dif_pos hc] at h
      by_cases h3 : 3 ≤ st.n_components
      · rw [if_pos h3] at h
        simp only [Except.ok.injEq, Prod.mk.injEq] at h
        obtain ⟨h1, h2⟩ := h
        rw [← h1, ← h2]
        exact ⟨rfl, rfl, rfl⟩
      · rw [if_neg h3] at h
        exact absurd h (by simp)
    · rw [dif_neg hc] at h
      exact absurd h (by simp)

/-- C9 amended witness: two analyzer states with the same n_components
but different stored fields produce identical perform_pca results. -/
theorem C9_amended_witness :
    (PCAAnalyzer_init 3 3).n_components
        = (⟨3, some ⟨0, Matrix.of fun _ _ => 0, fun _ => 0⟩,
            some fun _ => (5 : ℚ), some ["junk"]⟩ : AnalyzerState 3).n_components
      ∧ perform_pca solverC2 (PCAAnalyzer_init 3 3) panelA2 ["1Y"]
        = perform_pca solverC2
            ⟨3, some ⟨0, Matrix.of fun _ _ => 0, fun _ => 0⟩,
              some fun _ => (5 : ℚ), some ["junk"]⟩ panelA2 ["1Y"] :=
  ⟨rfl, C9_amended.1 4 3 solverC2 _ _ panelA2 ["1Y"] rfl⟩

/-! ## Claim C3 -/

def panelT : Matrix (Fin 3) (Fin 3) ℚ := !![2,1,0; -2,1,0; 0,-2,0]

def eigLT : Fin 3 → ℚ := ![4, 3, 0]

/-- The exact decomposition of panelT: its centered covariance is
already diagonal with descending entries, so the identity matrix is the
eigenvector matrix. -/
def solverT : EigenSolver 3 3 := fun _ => (1, eigLT)

lemma decomp_panelT : IsEigenDecomp (centerOf panelT) 1 eigLT := by
  refine ⟨by rw [Matrix.transpose_one, Matrix.mul_one], ?_, ?_⟩
  · rw [Matrix.transpose_one, Matrix.one_mul, Matrix.mul_one]
    ext i j
    fin_cases i <;> fin_cases j <;>
      norm_num [covMatrix, centerOf, meanOf, panelT, eigLT, Matrix.of_apply,
        Matrix.mul_apply, Matrix.smul_apply, Fin.sum_univ_succ,
        Matrix.transpose_apply, Matrix.diagonal_apply, Fin.ext_iff,
        Matrix.vecHead, Matrix.vecTail]
  · intro i j h
    fin_cases i <;> fin_cases j <;> simp_all [eigLT]
    all_goals norm_num

/-- C3 counterexample: the claim fails in three ways on concrete
inputs.  On a three-observation panel with three maturities and
n_components = 3 the fit succeeds and retains 3 components (the third
with eigenvalue 0), while the claim's formula demands
k = min(3, 3, 3-1) = 2; with n_components = 4 the fit raises sklearn's
ValueError instead of succeeding; and with n_components = 2 — within
every claimed bound, k = min(2, 3, 2) = 2 — the fit raises the
IndexError of the cumulative_variance[2] logging at line 64 instead of
succeeding. -/
theorem C3_counterexample :
    fitRetainedK solverT 3 panelT = some 3
      ∧ min 3 (min 3 (3 - 1)) = 2
      ∧ (3 : ℕ) ≠ 2
      ∧ IsEigenDecomp (centerOf panelT) 1 eigLT
      ∧ solverT (centerOf panelT) = (1, eigLT)
      ∧ fitRetainedK solverT 4 panelT = none
      ∧ fitRetainedK solverT 2 panelT = none := by
  refine ⟨?_, by norm_num, by norm_num, decomp_panelT, rfl, ?_, ?_⟩
  · norm_num [fitRetainedK, perform_pca, PCAAnalyzer_init]
  · norm_num [fitRetainedK, perform_pca, PCAAnalyzer_init]
  · norm_num [fitRetainedK, perform_pca, PCAAnalyzer_init]

/-- C3 amended: perform_pca returns successfully exactly when
3 <= n_components <= min(n_observations, m), and then retains exactly
n_components factors.  sklearn caps nothing: above
min(n_samples, n_features) its PCA raises ValueError (contrary to the
claim and to the repo's own test test_more_components_than_features,
which expects capping), there is no cap at n_observations - 1, and below
3 retained components the logging f-string cumulative_variance[2] at
line 64 raises IndexError, so fits with n_components 1 or 2 — and every
fit on a panel with fewer than 3 maturities or fewer than 3
observations — fail as well. -/
theorem C3_amended (nr m ncomp : ℕ) (solver : EigenSolver nr m)
    (Y : Matrix (Fin nr) (Fin m) ℚ) :
    (3 ≤ ncomp → ncomp ≤ min nr m → fitRetainedK solver ncomp Y = some ncomp)
    ∧ (min nr m < ncomp → fitRetainedK solver ncomp Y = none)
    ∧ (ncomp < 3 → fitRetainedK solver ncomp Y = none) := by
  refine ⟨fun h3 h => ?_, fun h => ?_, fun h3 => ?_⟩
  · rw [fitRetainedK, perform_pca,
      dif_pos (show (PCAAnalyzer_init m ncomp).n_components ≤ min nr m from h),
      if_pos (show 3 ≤ (PCAAnalyzer_init m ncomp).n_components from h3)]
    rfl
  · rw [fitRetainedK, perform_pca,
      dif_neg (show ¬(PCAAnalyzer_init m ncomp).n_components ≤ min nr m from by
        simp [PCAAnalyzer_init]; omega)]
  · rw [fitRetainedK, perform_pca]
    by_cases hc : (PCAAnalyzer_init m ncomp).n_components ≤ min nr m
    · rw [dif_pos hc,
        if_neg (show ¬3 ≤ (PCAAnalyzer_init m ncomp).n_components from by
          simp [PCAAnalyzer_init]; omega)]
    · rw [dif_neg hc]

/-- C3 amended witness: all three branches exercised on the concrete
panel. -/
theorem C3_amended_witness :
    ((3 : ℕ) ≤ 3 ∧ 3 ≤ min 3 3 ∧ fitRetainedK solverT 3 panelT = some 3)
      ∧ (min 3 3 < 4 ∧ fitRetainedK solverT 4 panelT = none)
      ∧ ((2 : ℕ) < 3 ∧ fitRetainedK solverT 2 panelT = none) :=
  ⟨⟨by norm_num, by norm_num,
      (C3_amended 3 3 3 solverT panelT).1 (by norm_num) (by norm_num)⟩,
   ⟨by norm_num, (C3_amended 3 3 4 solverT panelT).2.1 (by norm_num)⟩,
   ⟨by norm_num, (C3_amended 3 3 2 solverT panelT).2.2 (by norm_num)⟩⟩

/-! ## Claim C2 -/

lemma getD_ofFn {n : ℕ} (f : Fin n → ℚ) (i : ℕ) (hi : i < n) :
    (List.ofFn f).getD i 0 = f ⟨i, hi⟩ := by
  rw [List.getD_eq_getElem _ _ (by simpa using hi), List.getElem_ofFn]

lemma variance_explained_of_eq {nr m : ℕ} (solver : EigenSolver nr m)
    (ncomp : ℕ) (Y : Matrix (Fin nr) (Fin m) ℚ) (h : ncomp ≤ min nr m)
    (h3 : 3 ≤ ncomp) :
    variance_explained_of solver ncomp Y
      = List.ofFn fun i : Fin ncomp =>
          lamOf solver Y ncomp (h.trans (Nat.min_le_right nr m)) i
            / totalVariance (centerOf Y) := by
  rw [variance_explained_of, perform_pca,
    dif_pos (show (PCAAnalyzer_init m ncomp).n_components ≤ min nr m from h),
    if_pos (show 3 ≤ (PCAAnalyzer_init m ncomp).n_components from h3)]
  rfl

/-- C2: for a nondegenerate panel (positive total variance) whose
decomposition satisfies the sklearn contract, on every fit that returns
(which per line 64 requires at least 3 retained components) the
variance_explained list of perform_pca has one entry per retained
factor, is sorted descending, has every element in [0, 1], sums to at
most 1, and each entry is the corresponding eigenvalue divided by the
total variance — which equals the sum of ALL eigenvalues of the
centered covariance, not just the retained ones. -/
theorem C2_variance_explained (nr m ncomp : ℕ) (solver : EigenSolver nr m)
    (Y : Matrix (Fin nr) (Fin m) ℚ) (h2 : 2 ≤ nr) (hk : ncomp ≤ min nr m)
    (h3 : 3 ≤ ncomp)
    (hdec : IsEigenDecomp (centerOf Y) (solver (centerOf Y)).1 (solver (centerOf Y)).2)
    (htv : 0 < totalVariance (centerOf Y)) :
    (variance_explained_of solver ncomp Y).length = ncomp
    ∧ (∀ i j : ℕ, i ≤ j → j < ncomp →
        (variance_explained_of solver ncomp Y).getD j 0
          ≤ (variance_explained_of solver ncomp Y).getD i 0)
    ∧ (∀ x ∈ variance_explained_of solver ncomp Y, 0 ≤ x ∧ x ≤ 1)
    ∧ (variance_explained_of solver ncomp Y).sum ≤ 1
    ∧ totalVariance (centerOf Y) = ∑ i, (solver (centerOf Y)).2 i
    ∧ ∀ (i : ℕ) (hi : i < ncomp),
        (variance_explained_of solver ncomp Y).getD i 0
          = (solver (centerOf Y)).2
              (Fin.castLE (hk.trans (Nat.min_le_right nr m)) ⟨i, hi⟩)
            / totalVariance (centerOf Y) := by
  have hkm : ncomp ≤ m := hk.trans (Nat.min_le_right nr m)
  have hve := variance_explained_of_eq solver ncomp Y hk h3
  have hLnn : ∀ i, 0 ≤ (solver (centerOf Y)).2 i := eig_nonneg h2 hdec
  have hTsum : totalVariance (centerOf Y) = ∑ i, (solver (centerOf Y)).2 i :=
    total_eq_sum_eig hdec
  have hsort := hdec.2.2
  have hLle : ∀ i, (solver (centerOf Y)).2 i ≤ totalVariance (centerOf Y) := by
    intro i
    rw [hTsum]
    exact Finset.single_le_sum (fun j _ => hLnn j) (Finset.mem_univ i)
  refine ⟨?_, ?_, ?_, ?_, hTsum, ?_⟩
  · rw [hve, List.length_ofFn]
  · intro i j hij hj
    rw [hve, getD_ofFn _ j hj, getD_ofFn _ i (by omega)]
    have hmono := hsort (Fin.castLE hkm ⟨i, by omega⟩) (Fin.castLE hkm ⟨j, hj⟩)
      (by simpa using hij)
    simp only [lamOf]
    exact (div_le_div_iff_of_pos_right htv).mpr hmono
  · intro x hx
    rw [hve] at hx
    obtain ⟨i, hfi⟩ := Set.mem_range.mp ((List.mem_ofFn _ _).mp hx)
    rw [← hfi]
    exact ⟨div_nonneg (hLnn _) htv.le, (div_le_one htv).mpr (hLle _)⟩
  · rw [hve, List.sum_ofFn]
    simp only [lamOf]
    rw [← Finset.sum_div]
    refine (div_le_one htv).mpr ?_
    rw [hTsum]
    exact sum_castLE_le hkm _ hLnn
  · intro i hi
    rw [hve, getD_ofFn _ i hi]
    rfl

/-- C2 witness: the variance properties at the concrete panel, with a
fit that the source returns from (3 retained components). -/
theorem C2_variance_explained_witness :
    0 < totalVariance (centerOf panelD)
      ∧ (variance_explained_of solverD 3 panelD).sum ≤ 1 :=
  ⟨by rw [totalVariance_panelD]; norm_num,
   (C2_variance_explained 8 4 3 solverD panelD (by norm_num) (by norm_num)
      (by norm_num) decomp_panelD (by rw [totalVariance_panelD]; norm_num)).2.2.2.1⟩

/-! ## Claim C1 -/

/-- The round-trip harness unfolded on a successful fit (which needs
3 <= k <= min(n_observations, m)): the reconstruction from the full
score matrix with n = k against the original panel. -/
lemma roundtripMAE_reduce {nr m : ℕ} (solver : EigenSolver nr m) (k : ℕ)
    (Y : Matrix (Fin nr) (Fin m) ℚ) (hk : k ≤ min nr m) (h3 : 3 ≤ k) :
    roundtripMAE solver k Y
      = mae (Matrix.of fun i a =>
          (∑ c ∈ Finset.range k,
            matGetD (centerOf Y * (compsOf solver Y k (hk.trans (Nat.min_le_right nr m)))ᵀ) i c
              * rowGetD (compsOf solver Y k (hk.trans (Nat.min_le_right nr m))) c a)
          + meanOf Y a) Y := by
  rw [roundtripMAE, perform_pca,
    dif_pos (show (PCAAnalyzer_init m k).n_components ≤ min nr m from hk),
    if_pos (show 3 ≤ (PCAAnalyzer_init m k).n_components from h3)]
  show (match reconstruct_yield_curve _ _ _ with
    | .ok R => mae R Y
    | .error _ => -1) = _
  rw [reconstruct_yield_curve]
  simp only [Nat.min_self, if_pos]
  rfl

/-- C1 amended: whenever the fit returns at all (which per sklearn's
bound and line 64 requires 3 <= k <= min(n_observations, m)) and every
eigenvalue beyond the retained rank k vanishes — i.e. the retained
components span the centered data — the round-trip is exact (mean
absolute error 0, in particular below 1e-6); in general a fit that
retains fewer components than the rank of the centered data loses
information and the round-trip fails (see the counterexample). -/
theorem C1_amended (nr m k : ℕ) (solver : EigenSolver nr m)
    (Y : Matrix (Fin nr) (Fin m) ℚ) (h2 : 2 ≤ nr) (hk : k ≤ min nr m)
    (h3 : 3 ≤ k)
    (hdec : IsEigenDecomp (centerOf Y) (solver (centerOf Y)).1 (solver (centerOf Y)).2)
    (htrail : ∀ i : Fin m, k ≤ i.val → (solver (centerOf Y)).2 i = 0) :
    roundtripMAE solver k Y = 0 ∧ ((0 : ℚ) < 1 / 1000000) := by
  refine ⟨?_, by norm_num⟩
  rw [roundtripMAE_reduce solver k Y hk h3]
  have hkm : k ≤ m := hk.trans (Nat.min_le_right nr m)
  have hmain : (Matrix.of fun i a =>
      (∑ c ∈ Finset.range k,
        matGetD (centerOf Y * (compsOf solver Y k hkm)ᵀ) i c
          * rowGetD (compsOf solver Y k hkm) c a)
      + meanOf Y a) = Y := by
    ext i a
    have hsum : ∑ c ∈ Finset.range k,
        matGetD (centerOf Y * (compsOf solver Y k hkm)ᵀ) i c
          * rowGetD (compsOf solver Y k hkm) c a
        = ∑ c : Fin k, (centerOf Y * (compsOf solver Y k hkm)ᵀ) i c
            * compsOf solver Y k hkm c a := by
      rw [← Fin.sum_univ_eq_sum_range (fun c : ℕ =>
        matGetD (centerOf Y * (compsOf solver Y k hkm)ᵀ) i c
          * rowGetD (compsOf solver Y k hkm) c a) k]
      refine Finset.sum_congr rfl fun c _ => ?_
      rw [matGetD, rowGetD, dif_pos c.isLt, dif_pos c.isLt]
    have hproj : centerOf Y * (compsOf solver Y k hkm)ᵀ * compsOf solver Y k hkm
        = centerOf Y :=
      roundtrip_matrix hkm (centerOf Y) (solver (centerOf Y)).1
        (solver (centerOf Y)).2 hdec h2 htrail
    have hentry := congrFun (congrFun hproj i) a
    rw [Matrix.of_apply, hsum, ← Matrix.mul_apply, hentry]
    simp [centerOf, Matrix.of_apply]
  rw [hmain]
  simp [mae]

/-- C1 amended witness: fitting panelD with the full rank k = 4 (no
discarded eigenvalue) gives an exact round-trip. -/
theorem C1_amended_witness :
    (4 : ℕ) ≤ min 8 4 ∧ (3 : ℕ) ≤ 4 ∧ roundtripMAE solverD 4 panelD = 0 :=
  ⟨by norm_num, by norm_num,
   (C1_amended 8 4 4 solverD panelD (by norm_num) (by norm_num) (by norm_num)
      decomp_panelD (fun i hi => absurd i.isLt (by omega))).1⟩

/-- C1 counterexample: the round-trip is not exact for every valid
panel.  panelD is a valid panel (8 observations, 4 maturities, no
missing values); fitting it with n_components = 3 is a fit the source
returns from (3 retained components), the model's full retained rank is
k = 3, and reconstructing from the full score matrix with n = 3 yields
mean absolute error 1/8, far above the 1e-6 tolerance, because the
centered data has rank 4 and the discarded fourth eigenvalue 8/7 is
positive. -/
theorem C1_counterexample :
    roundtripMAE solverD 3 panelD = 1/8
      ∧ ¬((1/8 : ℚ) < 1/1000000)
      ∧ IsEigenDecomp (centerOf panelD) 1 eigLD
      ∧ solverD (centerOf panelD) = (1, eigLD) := by
  refine ⟨?_, by norm_num, decomp_panelD, rfl⟩
  norm_num [roundtripMAE, perform_pca, reconstruct_yield_curve, mae,
    PCAAnalyzer_init, matGetD, rowGetD, compsOf, lamOf, meanOf, centerOf,
    solverD, panelD, Matrix.one_apply, Matrix.mul_apply, Matrix.of_apply,
    Matrix.submatrix, Finset.sum_range_succ, Fin.sum_univ_succ,
    Matrix.transpose_apply, Fin.ext_iff, Fin.val_succ, Matrix.vecHead,
    Matrix.vecTail]

/-! ## Claim C8 -/

def panelConst3 : Matrix (Fin 3) (Fin 3) ℚ := !![1,2,3; 1,2,3; 1,2,3]

/-- Any orthonormal basis diagonalises the zero covariance matrix; this
is what sklearn's SVD of the zero matrix yields. -/
def solverZ3 : EigenSolver 3 3 := fun _ => (1, fun _ => 0)

/-- C8: on a panel whose observations are all identical the fit does NOT
fail: no DegenerateInputError (or any zero-variance guard) exists in the
code.  With 3 maturities and n_components = 3 (so that the line-64
logging does not raise either) perform_pca returns a model; the centered
data is the zero matrix, the total variance is 0, and every
explained-variance entry is the division 0/0 — which in IEEE arithmetic
is NaN, silently stored in the result (in the exact rational embedding
the division by the zero total variance is the value 0). -/
theorem C8_degenerate_no_guard :
    fitRetainedK solverZ3 3 panelConst3 = some 3
      ∧ centerOf panelConst3 = 0
      ∧ totalVariance (centerOf panelConst3) = 0
      ∧ variance_explained_of solverZ3 3 panelConst3 = [0, 0, 0]
      ∧ IsEigenDecomp (centerOf panelConst3) 1 (fun _ => 0) := by
  have hcenter : centerOf panelConst3 = 0 := by
    ext i a
    fin_cases i <;> fin_cases a <;>
      norm_num [centerOf, meanOf, panelConst3, Matrix.of_apply, Fin.sum_univ_succ]
  have htv : totalVariance (centerOf panelConst3) = 0 := by
    rw [hcenter]
    simp [totalVariance, covMatrix, Matrix.trace, Matrix.diag]
  refine ⟨?_, hcenter, htv, ?_, ?_⟩
  · norm_num [fitRetainedK, perform_pca, PCAAnalyzer_init]
  · rw [variance_explained_of_eq solverZ3 3 panelConst3 (by norm_num) (by norm_num)]
    simp [lamOf, solverZ3, List.ofFn_succ]
  · refine ⟨by rw [Matrix.transpose_one, Matrix.mul_one], ?_, ?_⟩
    · rw [hcenter, Matrix.transpose_one, Matrix.one_mul, Matrix.mul_one]
      have hdz : Matrix.diagonal (fun _ : Fin 3 => (0 : ℚ)) = 0 := Matrix.diagonal_zero
      rw [hdz]
      simp [covMatrix]
    · intro i j h
      exact le_refl 0

/-- C10 amended witness: a label remainder without interior SR_ is kept
verbatim after the leading match is removed. -/
theorem C10_amended_witness :
    containsSR ['1', '0', 'Y'] = false
      ∧ replaceSR ⟨'S' :: 'R' :: '_' :: ['1', '0', 'Y']⟩ = ⟨['1', '0', 'Y']⟩ :=
  ⟨by decide, C10_amended.2.2 ['1', '0', 'Y'] (by decide)⟩
